import Mathlib

/-!
Shallow embedding of the rlox expression pipeline (lexer, parser, evaluator)
from `src/parser/token.rs`, `src/parser.rs`, `src/ast.rs`, `src/interpreter.rs`
and `src/errors.rs`.

Modelling conventions:
* Rust `&str`/`String` values that are iterated character by character are
  `List Char`; diagnostic messages remain Lean `String`s.
* Rust `f32` number literals are modelled as exact rationals `ℚ`.  Every claim
  settled here only exercises values on which `f32` arithmetic is exact
  (small integers), so the modelling does not affect any verdict.
* `u32` line counters are `Nat` (no claim exercises wrap-around).
* Iterator-driven loops are given an explicit fuel parameter so that every
  definition is structurally recursive and kernel-reducible.  The fuel chosen
  by the public entry points is proved (or evidently, for the lexer, where each
  step consumes at least one character) sufficient; an exhausted-fuel outcome
  is distinguished from every behaviour of the Rust code.
-/

deriving instance DecidableEq for Except

/-! ## Tokens (`src/parser/token.rs`) -/

inductive TokenType where
  | LeftParen | RightParen | LeftBrace | RightBrace
  | Comma | Dot | Minus | Plus | Semicolon | Slash | Star
  | Bang | BangEqual | Equal | EqualEqual
  | Greater | GreaterEqual | Less | LessEqual
  | Identifier | String | Number
  | And | Class | Else | False | Fun | For | If | Nil | Or
  | Print | Return | Super | This | True | Var | While
  | EOF
  deriving DecidableEq, Repr

/-- Rust `TokenType::from_keyword`. -/
def from_keyword (kw : List Char) : TokenType :=
  if kw = "and".toList then .And
  else if kw = "class".toList then .Class
  else if kw = "else".toList then .Else
  else if kw = "false".toList then .False
  else if kw = "for".toList then .For
  else if kw = "fun".toList then .Fun
  else if kw = "if".toList then .If
  else if kw = "nil".toList then .Nil
  else if kw = "or".toList then .Or
  else if kw = "print".toList then .Print
  else if kw = "return".toList then .Return
  else if kw = "super".toList then .Super
  else if kw = "this".toList then .This
  else if kw = "true".toList then .True
  else if kw = "var".toList then .Var
  else if kw = "while".toList then .While
  else .Identifier

/-- The `Literal` enum from `token.rs` (`f32` modelled as `ℚ`). -/
inductive Literal where
  | Null
  | Text (s : List Char)
  | Number (q : ℚ)
  deriving DecidableEq, Repr

structure Token where
  token_type : TokenType
  lexeme : List Char
  literal : Literal
  line : Nat
  deriving DecidableEq, Repr

/-- Decimal digit run to a natural number (used to model `str::parse::<f32>`
on the digit strings the scanner builds). -/
def natOfDigits (ds : List Char) : Nat :=
  ds.foldl (fun a c => 10 * a + (c.toNat - 48)) 0

/-- Kernel-computable addition on `ℚ` (the library's `Rat.add` is
irreducible); proved equal to `+` in `qAdd_eq` below. -/
def qAdd (a b : ℚ) : ℚ := mkRat (a.num * b.den + b.num * a.den) (a.den * b.den)

/-- Kernel-computable subtraction on `ℚ`; proved equal to `-` in `qSub_eq`. -/
def qSub (a b : ℚ) : ℚ := mkRat (a.num * b.den - b.num * a.den) (a.den * b.den)

/-- Kernel-computable multiplication on `ℚ`; proved equal to `*` in
`qMul_eq`. -/
def qMul (a b : ℚ) : ℚ := mkRat (a.num * b.num) (a.den * b.den)

/-- Kernel-computable division on `ℚ` (division by zero yields zero, as for
`/` on `ℚ`); proved equal to `/` in `qDiv_eq`. -/
def qDiv (a b : ℚ) : ℚ := Rat.divInt (a.num * b.den) (a.den * b.num)

/-- Kernel-computable negation on `ℚ`; proved equal to `Neg.neg` in
`qNeg_eq`. -/
def qNeg (a : ℚ) : ℚ := mkRat (-a.num) a.den

/-- Model of `text.parse::<f32>()` restricted to the shapes the scanner
produces: a run of digits optionally followed by `.` and more digits.  The
value is the exact rational. -/
def parseNumQ (s : List Char) : Option ℚ :=
  let intPart := s.takeWhile Char.isDigit
  let rest := s.dropWhile Char.isDigit
  if intPart = [] then none
  else
    match rest with
    | [] => some (mkRat (natOfDigits intPart) 1)
    | '.' :: frac =>
      if frac ≠ [] ∧ frac.all Char.isDigit then
        some (mkRat (natOfDigits intPart * 10 ^ frac.length + natOfDigits frac)
          (10 ^ frac.length))
      else none
    | _ => none

/-- Number of newline characters in a character list. -/
def countNL : List Char → Nat
  | [] => 0
  | c :: cs => (if c = '\n' then 1 else 0) + countNL cs

/-- One iteration of the scanner's `while let Some(c) = chrs.next()` loop:
given the character `c` just taken and the remaining characters `cs`, either
emit a token, skip (no token), or fail, also reporting the remaining input and
updated line counter. -/
inductive ScanStep where
  | emit (t : Token) (rest : List Char) (line2 : Nat)
  | skip (rest : List Char) (line2 : Nat)
  | fail (msg : String)
  deriving Repr

/-- Builds the token for a numeric literal (`Token::new_number`), failing like
the Rust `?` on an unparsable text. -/
def numStep (s : List Char) (rest : List Char) (line : Nat) : ScanStep :=
  match parseNumQ s with
  | some q => .emit ⟨.Number, s, .Number q, line⟩ rest line
  | none => .fail "Invalid number."

/-- The body of the scanner loop in `scan_tokens`, one arm per `match c`
branch, in source order.  Faithful to the source's bugs: a `//` comment
consumes nothing beyond the first slash (the Rust `take_while` is built but
never polled), and `! = < >` as the very last character emit no token (the
`if let Some(&c1) = chrs.peek()` has no `None` arm). -/
def scanStep (c : Char) (cs : List Char) (line : Nat) : ScanStep :=
  if c = '(' then .emit ⟨.LeftParen, [c], .Null, line⟩ cs line
  else if c = ')' then .emit ⟨.RightParen, [c], .Null, line⟩ cs line
  else if c = '\x7b' then .emit ⟨.LeftBrace, [c], .Null, line⟩ cs line
  else if c = '\x7d' then .emit ⟨.RightBrace, [c], .Null, line⟩ cs line
  else if c = ',' then .emit ⟨.Comma, [c], .Null, line⟩ cs line
  else if c = '.' then .emit ⟨.Dot, [c], .Null, line⟩ cs line
  else if c = '-' then .emit ⟨.Minus, [c], .Null, line⟩ cs line
  else if c = '+' then .emit ⟨.Plus, [c], .Null, line⟩ cs line
  else if c = ';' then .emit ⟨.Semicolon, [c], .Null, line⟩ cs line
  else if c = '*' then .emit ⟨.Star, [c], .Null, line⟩ cs line
  else if c = '!' then
    match cs with
    | [] => .skip cs line
    | c1 :: cs2 =>
      if c1 = '=' then .emit ⟨.BangEqual, ['!', '='], .Null, line⟩ cs2 line
      else .emit ⟨.Bang, ['!'], .Null, line⟩ cs line
  else if c = '=' then
    match cs with
    | [] => .skip cs line
    | c1 :: cs2 =>
      if c1 = '=' then .emit ⟨.EqualEqual, ['=', '='], .Null, line⟩ cs2 line
      else .emit ⟨.Equal, [c], .Null, line⟩ cs line
  else if c = '<' then
    match cs with
    | [] => .skip cs line
    | c1 :: cs2 =>
      if c1 = '=' then .emit ⟨.LessEqual, ['<', '='], .Null, line⟩ cs2 line
      else .emit ⟨.Less, [c], .Null, line⟩ cs line
  else if c = '>' then
    match cs with
    | [] => .skip cs line
    | c1 :: cs2 =>
      if c1 = '=' then .emit ⟨.GreaterEqual, ['>', '='], .Null, line⟩ cs2 line
      else .emit ⟨.Greater, [c], .Null, line⟩ cs line
  else if c = '/' then
    match cs with
    | [] => .skip cs line
    | c1 :: _ =>
      if c1 = '/' then .skip cs line
      else .emit ⟨.Slash, ['/'], .Null, line⟩ cs line
  else if c = ' ' then .skip cs line
  else if c = '\r' then .skip cs line
  else if c = '\t' then .skip cs line
  else if c = '\n' then .skip cs (line + 1)
  else if c = '"' then
    match cs.dropWhile (fun x => x ≠ '"') with
    | [] => .fail "Unterminated string."
    | _ :: rest =>
      .emit ⟨.String, '"' :: (cs.takeWhile (fun x => x ≠ '"') ++ ['"']),
          .Text (cs.takeWhile (fun x => x ≠ '"')),
          line + countNL (cs.takeWhile (fun x => x ≠ '"'))⟩
        rest (line + countNL (cs.takeWhile (fun x => x ≠ '"')))
  else if c.isDigit then
    match cs.dropWhile (fun x => x ≠ '.' ∧ x.isDigit) with
    | [] => numStep (c :: cs.takeWhile (fun x => x ≠ '.' ∧ x.isDigit)) [] line
    | d :: rest2 =>
      if d ≠ '.' then
        numStep (c :: cs.takeWhile (fun x => x ≠ '.' ∧ x.isDigit)) (d :: rest2) line
      else if (rest2.takeWhile Char.isDigit).length = 0 then
        .fail "Invalid number: trailing dot."
      else
        numStep ((c :: cs.takeWhile (fun x => x ≠ '.' ∧ x.isDigit)) ++
            '.' :: rest2.takeWhile Char.isDigit)
          (rest2.dropWhile Char.isDigit) line
  else if c.isAlpha ∨ c = '_' then
    .emit ⟨from_keyword (c :: cs.takeWhile (fun x => x.isAlphanum ∨ x = '_')),
        c :: cs.takeWhile (fun x => x.isAlphanum ∨ x = '_'), .Null, line⟩
      (cs.dropWhile (fun x => x.isAlphanum ∨ x = '_')) line
  else .fail "Unexpected character."

/-- Prepend a token to a scan result. -/
def pushTok (t : Token) : Except String (List Token) → Except String (List Token)
  | .ok ts => .ok (t :: ts)
  | .error e => .error e

/-- The scanner loop of `scan_tokens`; when the input is exhausted the
trailing end-of-input token is appended with the current line. -/
def scanGo : Nat → List Char → Nat → Except String (List Token)
  | 0, _, _ => .error "out of fuel"
  | _ + 1, [], line => .ok [⟨.EOF, [], .Null, line⟩]
  | f + 1, c :: cs, line =>
    match scanStep c cs line with
    | .emit t rest line2 => pushTok t (scanGo f rest line2)
    | .skip rest line2 => scanGo f rest line2
    | .fail msg => .error msg

/-- Rust `scan_tokens` from `token.rs`.  Each loop iteration consumes at least one
character, so `length + 1` fuel always suffices. -/
def scan_tokens (source : List Char) : Except String (List Token) :=
  scanGo (source.length + 1) source 0

/-! ## AST (`src/ast.rs`) -/

inductive UnOp where
  | Minus | Bang
  deriving DecidableEq, Repr

inductive BinOp where
  | Bang | BangEqual | Equal | EqualEqual
  | Greater | GreaterEqual | Less | LessEqual
  | Plus | Minus | Star | Slash
  deriving DecidableEq, Repr

inductive LitKind where
  | Number (q : ℚ)
  | String (s : List Char)
  | Boolean (b : Bool)
  | Nil
  deriving DecidableEq, Repr

/-- The `ExprKind` and `Expr` types from `ast.rs`, flattened into one inductive: each
node kind together with the `token` field of the enclosing `Expr`. -/
inductive Expr where
  | Literal (lit : LitKind) (token : Token)
  | Unary (e : Expr) (op : UnOp) (token : Token)
  | Binary (l : Expr) (r : Expr) (op : BinOp) (token : Token)
  | Grouping (e : Expr) (token : Token)
  deriving DecidableEq, Repr

/-- Rust `impl BinaryEval<f32> for BinOp`, `bin_eval`: only the four arithmetic
operators are defined on numbers; every other operator (including all
comparisons) falls to the `_ => return None` arm. -/
def bin_eval_num (op : BinOp) (a b : ℚ) : Option ℚ :=
  match op with
  | .Plus => some (qAdd a b)
  | .Minus => some (qSub a b)
  | .Star => some (qMul a b)
  | .Slash => some (qDiv a b)
  | _ => none

/-- Rust `impl BinaryEval<String> for BinOp`, `bin_eval`. -/
def bin_eval_str (op : BinOp) (a b : List Char) : Option (List Char) :=
  match op with
  | .Plus => some (a ++ b)
  | _ => none

/-- Rust `impl UnaryEval<f32> for UnOp`, `unary_eval`. -/
def unary_eval_num (op : UnOp) (a : ℚ) : Option ℚ :=
  match op with
  | .Minus => some (qNeg a)
  | .Bang => none

/-- Rust `impl UnaryEval<bool> for UnOp`, `unary_eval`. -/
def unary_eval_bool (op : UnOp) (a : Bool) : Option Bool :=
  match op with
  | .Minus => none
  | .Bang => some (!a)

/-- Rust `TryFrom<Literal> for LitKind` (`ast.rs`): `Option` stands for the
`Result`, whose error is only ever consumed by an `expect`. -/
def litKindTryFrom (v : Literal) : Option LitKind :=
  match v with
  | .Null => none
  | .Text t => some (.String t)
  | .Number n => some (.Number n)

/-! ## Diagnostics (`src/errors.rs`) -/

structure GenericError where
  line : Nat
  lexeme : List Char
  message : String
  deriving DecidableEq, Repr

inductive LoxError where
  | ParseError (e : GenericError)
  | RuntimeError (e : GenericError)
  deriving DecidableEq, Repr

/-- Rust `LoxError::new_runtime`. -/
def LoxError.new_runtime (t : Token) (msg : String) : LoxError :=
  .RuntimeError ⟨t.line, t.lexeme, msg⟩

/-- Rust `LoxError::new_parse`. -/
def LoxError.new_parse (t : Token) (msg : String) : LoxError :=
  .ParseError ⟨t.line, t.lexeme, msg⟩

/-! ## Parser (`src/parser.rs`)

The recursive-descent functions `parse_expr`, `parse_equality`,
`parse_comparison`, `parse_term`, `parse_factor`, `parse_unary` and
`parse_primary`, together with the `loop` bodies of the four binary levels,
are combined into the single fuel-indexed function `parseStep`; each
constructor of `PFn` names one of them.  Every call passes `fuel - 1`.

The parser-side `ParserError` of `parser.rs` is kept separate from
`LoxError`, as in the source.  The snapshot's `Expr::new(kind)` calls never
supply the `token` field; the placeholder `noTok` models that unspecified
value.  A `.crash` outcome models a Rust panic (the `expect` calls in
`parse_primary`); `.starved` is the out-of-fuel artifact of the embedding,
proved unreachable for the fuel used by `parse_tokens` in
`parseStep_total` below. -/

structure ParserError where
  line : Nat
  lexeme : List Char
  message : String
  deriving DecidableEq, Repr

/-- Rust `ParserError::new`. -/
def ParserError.new (t : Token) (message : String) : ParserError :=
  ⟨t.line, t.lexeme, message⟩

inductive POut (α : Type) where
  | ok (a : α)
  | perr (e : ParserError)
  | crash
  | starved
  deriving DecidableEq, Repr

/-- Placeholder for the `token` field left unsupplied by the snapshot's
one-argument `Expr::new(kind)` calls. -/
def noTok : Token := ⟨.EOF, [], .Null, 0⟩

inductive PFn where
  | pexpr
  | pequality
  | pcomparison
  | pterm
  | pfactor
  | punary
  | pprimary
  | peqLoop (left : Expr)
  | pcompLoop (left : Expr)
  | ptermLoop (left : Expr)
  | pfactorLoop (left : Expr)
  deriving Repr

/-- The parser.  The iterator is the not-yet-consumed token list; `peek` is
matching on its head without dropping it, `next` drops it.  NOTE the
faithfully reproduced detail of `parse_comparison`: its loop parses the right
operand with `parse_comparison` itself (not `parse_term`), unlike the other
three binary levels, which call the next-higher level. -/
def parseStep : Nat → PFn → List Token → POut (Expr × List Token)
  | 0, _, _ => .starved
  | f + 1, pf, ts =>
    match pf with
    | .pexpr => parseStep f .pequality ts
    | .pequality =>
      match parseStep f .pcomparison ts with
      | .ok (left, rest) => parseStep f (.peqLoop left) rest
      | r => r
    | .peqLoop left =>
      match ts with
      | [] => .ok (left, ts)
      | t :: rest =>
        if t.token_type = .EqualEqual then
          match parseStep f .pcomparison rest with
          | .ok (right, rest2) =>
            parseStep f (.peqLoop (.Binary left right .EqualEqual noTok)) rest2
          | r => r
        else if t.token_type = .BangEqual then
          match parseStep f .pcomparison rest with
          | .ok (right, rest2) =>
            parseStep f (.peqLoop (.Binary left right .BangEqual noTok)) rest2
          | r => r
        else .ok (left, ts)
    | .pcomparison =>
      match parseStep f .pterm ts with
      | .ok (left, rest) => parseStep f (.pcompLoop left) rest
      | r => r
    | .pcompLoop left =>
      match ts with
      | [] => .ok (left, ts)
      | t :: rest =>
        if t.token_type = .Greater then
          match parseStep f .pcomparison rest with
          | .ok (right, rest2) =>
            parseStep f (.pcompLoop (.Binary left right .Greater noTok)) rest2
          | r => r
        else if t.token_type = .GreaterEqual then
          match parseStep f .pcomparison rest with
          | .ok (right, rest2) =>
            parseStep f (.pcompLoop (.Binary left right .GreaterEqual noTok)) rest2
          | r => r
        else if t.token_type = .Less then
          match parseStep f .pcomparison rest with
          | .ok (right, rest2) =>
            parseStep f (.pcompLoop (.Binary left right .Less noTok)) rest2
          | r => r
        else if t.token_type = .LessEqual then
          match parseStep f .pcomparison rest with
          | .ok (right, rest2) =>
            parseStep f (.pcompLoop (.Binary left right .LessEqual noTok)) rest2
          | r => r
        else .ok (left, ts)
    | .pterm =>
      match parseStep f .pfactor ts with
      | .ok (left, rest) => parseStep f (.ptermLoop left) rest
      | r => r
    | .ptermLoop left =>
      match ts with
      | [] => .ok (left, ts)
      | t :: rest =>
        if t.token_type = .Minus then
          match parseStep f .pfactor rest with
          | .ok (right, rest2) =>
            parseStep f (.ptermLoop (.Binary left right .Minus noTok)) rest2
          | r => r
        else if t.token_type = .Plus then
          match parseStep f .pfactor rest with
          | .ok (right, rest2) =>
            parseStep f (.ptermLoop (.Binary left right .Plus noTok)) rest2
          | r => r
        else .ok (left, ts)
    | .pfactor =>
      match parseStep f .punary ts with
      | .ok (left, rest) => parseStep f (.pfactorLoop left) rest
      | r => r
    | .pfactorLoop left =>
      match ts with
      | [] => .ok (left, ts)
      | t :: rest =>
        if t.token_type = .Slash then
          match parseStep f .punary rest with
          | .ok (right, rest2) =>
            parseStep f (.pfactorLoop (.Binary left right .Slash noTok)) rest2
          | r => r
        else if t.token_type = .Star then
          match parseStep f .punary rest with
          | .ok (right, rest2) =>
            parseStep f (.pfactorLoop (.Binary left right .Star noTok)) rest2
          | r => r
        else .ok (left, ts)
    | .punary =>
      match ts with
      | t :: rest =>
        if t.token_type = .Bang then
          match parseStep f .punary rest with
          | .ok (e, rest2) => .ok (.Unary e .Bang noTok, rest2)
          | r => r
        else if t.token_type = .Minus then
          match parseStep f .punary rest with
          | .ok (e, rest2) => .ok (.Unary e .Minus noTok, rest2)
          | r => r
        else parseStep f .pprimary ts
      | [] => parseStep f .pprimary ts
    | .pprimary =>
      match ts with
      | [] => .crash
      | t :: rest =>
        if t.token_type = .True then .ok (.Literal (.Boolean true) noTok, rest)
        else if t.token_type = .False then .ok (.Literal (.Boolean false) noTok, rest)
        else if t.token_type = .Nil then .ok (.Literal .Nil noTok, rest)
        else if t.token_type = .Number then
          match litKindTryFrom t.literal with
          | some kind => .ok (.Literal kind noTok, rest)
          | none => .crash
        else if t.token_type = .String then
          match litKindTryFrom t.literal with
          | some kind => .ok (.Literal kind noTok, rest)
          | none => .crash
        else if t.token_type = .LeftParen then
          match parseStep f .pexpr rest with
          | .ok (e, rest2) =>
            match rest2 with
            | t2 :: rest3 =>
              if t2.token_type = .RightParen then .ok (.Grouping e noTok, rest3)
              else .perr (ParserError.new t "Expected closing )")
            | [] => .perr (ParserError.new t "Expected closing )")
          | r => r
        else .perr (ParserError.new t "Expected expression")

/-- Rust `parse_expr` (entry of the recursive descent) at a given fuel. -/
def parse_expr (fuel : Nat) (ts : List Token) : POut (Expr × List Token) :=
  parseStep fuel .pexpr ts

/-- Rust `parse_tokens`: runs `parse_expr` on the token slice and discards the
iterator, so any unconsumed tokens are ignored.  The fuel `8 * length + 7`
is proved sufficient in `parseStep_total`. -/
def parse_tokens (ts : List Token) : POut Expr :=
  match parse_expr (8 * ts.length + 7) ts with
  | .ok (e, _) => .ok e
  | .perr e => .perr e
  | .crash => .crash
  | .starved => .starved

/-! ## Evaluator (`src/interpreter.rs`) -/

/-- Rust `visit_helper`: the tree-walk evaluator.  Note both error values are
built with `LoxError::new_parse` (not `new_runtime`), exactly as in the
source. -/
def visit_helper : Expr → Except LoxError LitKind
  | .Binary l r op token => do
    let left ← visit_helper l
    let right ← visit_helper r
    let err := LoxError.new_parse token "incompatible types"
    match left, right with
    | .Number a, .Number b =>
      match bin_eval_num op a b with
      | some v => .ok (.Number v)
      | none => .error err
    | .String a, .String b =>
      match bin_eval_str op a b with
      | some v => .ok (.String v)
      | none => .error err
    | .Nil, .Nil => .ok .Nil
    | _, _ => .error err
  | .Grouping e _ => visit_helper e
  | .Unary e op token => do
    let err := LoxError.new_parse token "invalid operation"
    match ← visit_helper e with
    | .Boolean b =>
      match unary_eval_bool op b with
      | some v => .ok (.Boolean v)
      | none => .error err
    | .Number n =>
      match unary_eval_num op n with
      | some v => .ok (.Number v)
      | none => .error err
    | _ => .error err
  | .Literal lit _ => .ok lit

/-! ## Definitions used in claim statements -/

/-- The parser claims' hypothesis: the token slice ends with an end-of-input
token. -/
def EndsEOF (ts : List Token) : Prop :=
  match ts.getLast? with
  | some t => t.token_type = TokenType.EOF
  | none => False

/-- The literal shapes the lexer guarantees: a Number token carries a numeric
decoded literal, a String token a textual one. -/
def wfTok (t : Token) : Bool :=
  match t.token_type, t.literal with
  | .Number, .Number _ => true
  | .Number, _ => false
  | .String, .Text _ => true
  | .String, _ => false
  | _, _ => true

abbrev WFtoks (ts : List Token) : Prop := ∀ t ∈ ts, wfTok t = true

/-- Modelled from the spec: the (0-based) line on which the character at
position `i` of the source lies, a character lying on the line it
terminates; states the spec's "line of the last source character". -/
def specCharLine (source : List Char) (i : Nat) : Nat := countNL (source.take i)

/-! # Theorems -/

/-! ## The computable rational operations agree with the `ℚ` field ops -/

theorem num_mul_den (a : ℚ) : (a.num : ℚ) = a * a.den := by
  have ha : (a.den : ℚ) ≠ 0 := Nat.cast_ne_zero.mpr a.den_nz
  exact (div_eq_iff ha).mp (Rat.num_div_den a)

theorem qAdd_eq (a b : ℚ) : qAdd a b = a + b := by
  have ha : (a.den : ℚ) ≠ 0 := Nat.cast_ne_zero.mpr a.den_nz
  have hb : (b.den : ℚ) ≠ 0 := Nat.cast_ne_zero.mpr b.den_nz
  rw [qAdd, Rat.mkRat_eq_div]
  push_cast
  rw [div_eq_iff (mul_ne_zero ha hb), num_mul_den a, num_mul_den b]
  ring

theorem qSub_eq (a b : ℚ) : qSub a b = a - b := by
  have ha : (a.den : ℚ) ≠ 0 := Nat.cast_ne_zero.mpr a.den_nz
  have hb : (b.den : ℚ) ≠ 0 := Nat.cast_ne_zero.mpr b.den_nz
  rw [qSub, Rat.mkRat_eq_div]
  push_cast
  rw [div_eq_iff (mul_ne_zero ha hb), num_mul_den a, num_mul_den b]
  ring

theorem qMul_eq (a b : ℚ) : qMul a b = a * b := by
  have ha : (a.den : ℚ) ≠ 0 := Nat.cast_ne_zero.mpr a.den_nz
  have hb : (b.den : ℚ) ≠ 0 := Nat.cast_ne_zero.mpr b.den_nz
  rw [qMul, Rat.mkRat_eq_div]
  push_cast
  rw [div_eq_iff (mul_ne_zero ha hb), num_mul_den a, num_mul_den b]
  ring

theorem qNeg_eq (a : ℚ) : qNeg a = -a := by
  have ha : (a.den : ℚ) ≠ 0 := Nat.cast_ne_zero.mpr a.den_nz
  rw [qNeg, Rat.mkRat_eq_div]
  push_cast
  rw [div_eq_iff ha, num_mul_den a]
  ring

theorem qDiv_eq (a b : ℚ) : qDiv a b = a / b := by
  rw [qDiv, Rat.divInt_eq_div]
  rcases eq_or_ne b 0 with rfl | hb
  · simp
  · have ha : (a.den : ℚ) ≠ 0 := Nat.cast_ne_zero.mpr a.den_nz
    have hbq : (b.num : ℚ) ≠ 0 := Int.cast_ne_zero.mpr (Rat.num_ne_zero.mpr hb)
    push_cast
    rw [div_eq_div_iff (mul_ne_zero ha hbq) hb, num_mul_den a, num_mul_den b]
    ring

/-! ## Scanner sanity checks (the unit tests of `token.rs`) -/

example : scan_tokens " \"abc\"".toList =
    .ok [⟨.String, "\"abc\"".toList, .Text "abc".toList, 0⟩, ⟨.EOF, [], .Null, 0⟩] := by
  decide

example : scan_tokens "123 123.25".toList =
    .ok [⟨.Number, "123".toList, .Number (mkRat 123 1), 0⟩,
         ⟨.Number, "123.25".toList, .Number (mkRat 493 4), 0⟩,
         ⟨.EOF, [], .Null, 0⟩] := by
  decide

example : scan_tokens "while if true xy_zt\n__x1".toList =
    .ok [⟨.While, "while".toList, .Null, 0⟩,
         ⟨.If, "if".toList, .Null, 0⟩,
         ⟨.True, "true".toList, .Null, 0⟩,
         ⟨.Identifier, "xy_zt".toList, .Null, 0⟩,
         ⟨.Identifier, "__x1".toList, .Null, 1⟩,
         ⟨.EOF, [], .Null, 1⟩] := by
  decide

example : scan_tokens "! != = == () \n <=<.".toList =
    .ok [⟨.Bang, ['!'], .Null, 0⟩,
         ⟨.BangEqual, ['!', '='], .Null, 0⟩,
         ⟨.Equal, ['='], .Null, 0⟩,
         ⟨.EqualEqual, ['=', '='], .Null, 0⟩,
         ⟨.LeftParen, ['('], .Null, 0⟩,
         ⟨.RightParen, [')'], .Null, 0⟩,
         ⟨.LessEqual, ['<', '='], .Null, 1⟩,
         ⟨.Less, ['<'], .Null, 1⟩,
         ⟨.Dot, ['.'], .Null, 1⟩,
         ⟨.EOF, [], .Null, 1⟩] := by
  decide

/-! ## Claim C1 -/

/-- C1 (code bug): the comparison level is right-associative, because the
loop in `parse_comparison` parses its right operand with `parse_comparison`
itself instead of `parse_term` (contradicting the grammar comment above it):
the token sequence for `1 < 2 < 3` parses as `Binary(1, Binary(2, 3))`, not
`Binary(Binary(1, 2), 3)`.  The term level (and the `1 - 2 - 3` example of
the claim) is genuinely left-associative and evaluates to `-4`. -/
theorem c1_comparison_level_right_assoc :
    parse_tokens [⟨.Number, ['1'], .Number (mkRat 1 1), 0⟩,
        ⟨.Less, ['<'], .Null, 0⟩,
        ⟨.Number, ['2'], .Number (mkRat 2 1), 0⟩,
        ⟨.Less, ['<'], .Null, 0⟩,
        ⟨.Number, ['3'], .Number (mkRat 3 1), 0⟩,
        ⟨.EOF, [], .Null, 0⟩] =
      .ok (.Binary (.Literal (.Number (mkRat 1 1)) noTok)
        (.Binary (.Literal (.Number (mkRat 2 1)) noTok)
          (.Literal (.Number (mkRat 3 1)) noTok) .Less noTok)
        .Less noTok) ∧
    parse_tokens [⟨.Number, ['1'], .Number (mkRat 1 1), 0⟩,
        ⟨.Minus, ['-'], .Null, 0⟩,
        ⟨.Number, ['2'], .Number (mkRat 2 1), 0⟩,
        ⟨.Minus, ['-'], .Null, 0⟩,
        ⟨.Number, ['3'], .Number (mkRat 3 1), 0⟩,
        ⟨.EOF, [], .Null, 0⟩] =
      .ok (.Binary
        (.Binary (.Literal (.Number (mkRat 1 1)) noTok)
          (.Literal (.Number (mkRat 2 1)) noTok) .Minus noTok)
        (.Literal (.Number (mkRat 3 1)) noTok) .Minus noTok) ∧
    visit_helper (.Binary
        (.Binary (.Literal (.Number (mkRat 1 1)) noTok)
          (.Literal (.Number (mkRat 2 1)) noTok) .Minus noTok)
        (.Literal (.Number (mkRat 3 1)) noTok) .Minus noTok) =
      .ok (.Number (mkRat (-4) 1)) := by
  refine ⟨by decide, by decide, by decide⟩

/-! ## Claim C2 -/

/-- C2 (code bug): when a binary operator meets an operand pairing for which
it is undefined, `visit_helper` builds the error with `LoxError::new_parse`,
so the returned error is of kind ParseError, not RuntimeError; it does carry
the node's representative token and (for binary pairings) the message
"incompatible types".  Shown at `1 + "a"` and at unary minus on nil. -/
theorem c2_type_errors_are_ParseError :
    visit_helper (.Binary (.Literal (.Number (mkRat 1 1)) noTok)
        (.Literal (.String ['a']) noTok) .Plus ⟨.Plus, ['+'], .Null, 0⟩) =
      .error (.ParseError ⟨0, ['+'], "incompatible types"⟩) ∧
    visit_helper (.Unary (.Literal .Nil noTok) .Minus ⟨.Minus, ['-'], .Null, 3⟩) =
      .error (.ParseError ⟨3, ['-'], "invalid operation"⟩) := by
  refine ⟨by decide, by decide⟩

/-! ## Claim C3 -/

/-- C3 (code bug): `BinaryEval<f32>::bin_eval` returns `None` for all six
comparison operators, so a comparison of two Numbers evaluates to the
"incompatible types" error (of kind ParseError), never to a Boolean. -/
theorem c3_number_comparisons_undefined :
    (∀ a b : ℚ,
      bin_eval_num .EqualEqual a b = none ∧
      bin_eval_num .BangEqual a b = none ∧
      bin_eval_num .Less a b = none ∧
      bin_eval_num .LessEqual a b = none ∧
      bin_eval_num .Greater a b = none ∧
      bin_eval_num .GreaterEqual a b = none) ∧
    visit_helper (.Binary (.Literal (.Number (mkRat 1 1)) noTok)
        (.Literal (.Number (mkRat 2 1)) noTok) .Less ⟨.Less, ['<'], .Null, 0⟩) =
      .error (.ParseError ⟨0, ['<'], "incompatible types"⟩) := by
  exact ⟨fun a b => ⟨rfl, rfl, rfl, rfl, rfl, rfl⟩, by decide⟩

/-! ## Claim C4 -/

/-- C4 (code bug): the `(Nil, Nil)` arm of `visit_helper` yields `Nil` for
every operator: `nil == nil` evaluates to Nil (not Boolean true) and
`nil + nil` also evaluates to Nil (not a RuntimeError).  In fact the result
is `Nil` for all twelve operators. -/
theorem c4_nil_nil_always_nil :
    visit_helper (.Binary (.Literal .Nil noTok) (.Literal .Nil noTok)
        .EqualEqual ⟨.EqualEqual, ['=', '='], .Null, 0⟩) = .ok .Nil ∧
    visit_helper (.Binary (.Literal .Nil noTok) (.Literal .Nil noTok)
        .Plus ⟨.Plus, ['+'], .Null, 0⟩) = .ok .Nil ∧
    (∀ op : BinOp, ∀ t : Token,
      visit_helper (.Binary (.Literal .Nil noTok) (.Literal .Nil noTok) op t) =
        .ok .Nil) := by
  refine ⟨by decide, by decide, fun op t => rfl⟩

/-! ## Claim C5 -/

/-- C5 (code bug): the `//` comment branch builds its `take_while` iterator
but never polls it, so nothing after the first slash is consumed: scanning
`1//a\n2` emits a Slash token and an Identifier token for the "comment" text
instead of discarding it. -/
theorem c5_comment_text_not_discarded :
    scan_tokens "1//a\n2".toList =
      .ok [⟨.Number, ['1'], .Number (mkRat 1 1), 0⟩,
           ⟨.Slash, ['/'], .Null, 0⟩,
           ⟨.Identifier, ['a'], .Null, 0⟩,
           ⟨.Number, ['2'], .Number (mkRat 2 1), 1⟩,
           ⟨.EOF, [], .Null, 1⟩] := by
  decide

/-! ## Claim C6 -/

/-- C6 (code bug): when `!`, `=`, `<` or `>` is the last character of the
source, `peek()` returns `None`, the `if let` falls through, and no token at
all is emitted for it: the scan yields just the end-of-input token. -/
theorem c6_trailing_operator_dropped :
    scan_tokens ['!'] = .ok [⟨.EOF, [], .Null, 0⟩] ∧
    scan_tokens ['='] = .ok [⟨.EOF, [], .Null, 0⟩] ∧
    scan_tokens ['<'] = .ok [⟨.EOF, [], .Null, 0⟩] ∧
    scan_tokens ['>'] = .ok [⟨.EOF, [], .Null, 0⟩] ∧
    scan_tokens "1 <".toList =
      .ok [⟨.Number, ['1'], .Number (mkRat 1 1), 0⟩, ⟨.EOF, [], .Null, 0⟩] := by
  refine ⟨by decide, by decide, by decide, by decide, by decide⟩

/-! ## Lexer line/EOF bookkeeping -/

theorem countNL_append (l1 l2 : List Char) :
    countNL (l1 ++ l2) = countNL l1 + countNL l2 := by
  induction l1 with
  | nil => simp [countNL]
  | cons c cs ih => simp [countNL, ih]; omega

theorem countNL_cons_of_ne (c : Char) (cs : List Char) (h : ¬ c = '\n') :
    countNL (c :: cs) = countNL cs := by
  simp [countNL, h]

theorem countNL_takeWhile_zero (p : Char → Bool) (l : List Char)
    (hp : ∀ x, p x = true → ¬ x = '\n') : countNL (l.takeWhile p) = 0 := by
  induction l with
  | nil => rfl
  | cons c cs ih =>
    rw [List.takeWhile_cons]
    by_cases h : p c = true
    · rw [if_pos h]
      simp [countNL, hp c h, ih]
    · rw [if_neg h]
      rfl

theorem dropWhile_head_false (p : Char → Bool) (l : List Char) (x : Char)
    (xs : List Char) (h : l.dropWhile p = x :: xs) : p x = false := by
  induction l with
  | nil => simp [List.dropWhile] at h
  | cons c cs ih =>
    rw [List.dropWhile_cons] at h
    by_cases hc : p c = true
    · rw [if_pos hc] at h; exact ih h
    · rw [if_neg hc] at h
      cases h
      simpa using hc

theorem countNL_split (p : Char → Bool) (l : List Char)
    (hp : ∀ x, p x = true → ¬ x = '\n') :
    countNL l = countNL (l.dropWhile p) := by
  conv_lhs => rw [← List.takeWhile_append_dropWhile (p := p) (l := l)]
  rw [countNL_append, countNL_takeWhile_zero p l hp]
  omega


theorem from_keyword_ne_eof (kw : List Char) : from_keyword kw ≠ .EOF := by
  unfold from_keyword
  by_cases h0 : kw = "and".toList
  · rw [if_pos h0]; decide
  rw [if_neg h0]
  by_cases h1 : kw = "class".toList
  · rw [if_pos h1]; decide
  rw [if_neg h1]
  by_cases h2 : kw = "else".toList
  · rw [if_pos h2]; decide
  rw [if_neg h2]
  by_cases h3 : kw = "false".toList
  · rw [if_pos h3]; decide
  rw [if_neg h3]
  by_cases h4 : kw = "for".toList
  · rw [if_pos h4]; decide
  rw [if_neg h4]
  by_cases h5 : kw = "fun".toList
  · rw [if_pos h5]; decide
  rw [if_neg h5]
  by_cases h6 : kw = "if".toList
  · rw [if_pos h6]; decide
  rw [if_neg h6]
  by_cases h7 : kw = "nil".toList
  · rw [if_pos h7]; decide
  rw [if_neg h7]
  by_cases h8 : kw = "or".toList
  · rw [if_pos h8]; decide
  rw [if_neg h8]
  by_cases h9 : kw = "print".toList
  · rw [if_pos h9]; decide
  rw [if_neg h9]
  by_cases h10 : kw = "return".toList
  · rw [if_pos h10]; decide
  rw [if_neg h10]
  by_cases h11 : kw = "super".toList
  · rw [if_pos h11]; decide
  rw [if_neg h11]
  by_cases h12 : kw = "this".toList
  · rw [if_pos h12]; decide
  rw [if_neg h12]
  by_cases h13 : kw = "true".toList
  · rw [if_pos h13]; decide
  rw [if_neg h13]
  by_cases h14 : kw = "var".toList
  · rw [if_pos h14]; decide
  rw [if_neg h14]
  by_cases h15 : kw = "while".toList
  · rw [if_pos h15]; decide
  rw [if_neg h15]
  decide

theorem digit_ne_nl (c : Char) (h : c.isDigit = true) : ¬ c = '\n' := by
  intro e
  subst e
  exact absurd h (by decide)

theorem alpha_ne_nl (c : Char) (h : c.isAlpha = true ∨ c = '_') : ¬ c = '\n' := by
  intro e
  subst e
  rcases h with h | h
  · exact absurd h (by decide)
  · exact absurd h (by decide)

theorem alnum_ne_nl (c : Char) (h : c.isAlphanum = true ∨ c = '_') :
    ¬ c = '\n' := by
  intro e
  subst e
  rcases h with h | h
  · exact absurd h (by decide)
  · exact absurd h (by decide)


theorem countNL_take_drop (p : Char → Bool) (l : List Char) :
    countNL l = countNL (l.takeWhile p) + countNL (l.dropWhile p) := by
  conv_lhs => rw [← List.takeWhile_append_dropWhile (p := p) (l := l)]
  rw [countNL_append]

/-- Each iteration of the scanner loop keeps the line-count invariant: the
updated line plus the newlines in the remaining input equals the entry line
plus the newlines in the current input, and no emitted token is an EOF
token. -/
theorem scanStep_lines (c : Char) (cs : List Char) (line : Nat) :
    match scanStep c cs line with
    | .emit t rest line2 =>
        t.token_type ≠ .EOF ∧ line2 + countNL rest = line + countNL (c :: cs)
    | .skip rest line2 => line2 + countNL rest = line + countNL (c :: cs)
    | .fail _ => True := by
  unfold scanStep
  by_cases h1 : c = '('
  · rw [if_pos h1]; exact ⟨by simp, by subst h1; simp [countNL]⟩
  rw [if_neg h1]
  by_cases h2 : c = ')'
  · rw [if_pos h2]; exact ⟨by simp, by subst h2; simp [countNL]⟩
  rw [if_neg h2]
  by_cases h3 : c = '\x7b'
  · rw [if_pos h3]; exact ⟨by simp, by subst h3; simp [countNL]⟩
  rw [if_neg h3]
  by_cases h4 : c = '\x7d'
  · rw [if_pos h4]; exact ⟨by simp, by subst h4; simp [countNL]⟩
  rw [if_neg h4]
  by_cases h5 : c = ','
  · rw [if_pos h5]; exact ⟨by simp, by subst h5; simp [countNL]⟩
  rw [if_neg h5]
  by_cases h6 : c = '.'
  · rw [if_pos h6]; exact ⟨by simp, by subst h6; simp [countNL]⟩
  rw [if_neg h6]
  by_cases h7 : c = '-'
  · rw [if_pos h7]; exact ⟨by simp, by subst h7; simp [countNL]⟩
  rw [if_neg h7]
  by_cases h8 : c = '+'
  · rw [if_pos h8]; exact ⟨by simp, by subst h8; simp [countNL]⟩
  rw [if_neg h8]
  by_cases h9 : c = ';'
  · rw [if_pos h9]; exact ⟨by simp, by subst h9; simp [countNL]⟩
  rw [if_neg h9]
  by_cases h10 : c = '*'
  · rw [if_pos h10]; exact ⟨by simp, by subst h10; simp [countNL]⟩
  rw [if_neg h10]
  by_cases h11 : c = '!'
  · rw [if_pos h11]
    subst h11
    cases cs with
    | nil => simp [countNL]
    | cons c1 cs2 =>
      dsimp only
      by_cases hq : c1 = '='
      · rw [if_pos hq]
        subst hq
        exact ⟨by simp, by simp [countNL]⟩
      · rw [if_neg hq]
        exact ⟨by simp, by simp [countNL]⟩
  rw [if_neg h11]
  by_cases h12 : c = '='
  · rw [if_pos h12]
    subst h12
    cases cs with
    | nil => simp [countNL]
    | cons c1 cs2 =>
      dsimp only
      by_cases hq : c1 = '='
      · rw [if_pos hq]
        subst hq
        exact ⟨by simp, by simp [countNL]⟩
      · rw [if_neg hq]
        exact ⟨by simp, by simp [countNL]⟩
  rw [if_neg h12]
  by_cases h13 : c = '<'
  · rw [if_pos h13]
    subst h13
    cases cs with
    | nil => simp [countNL]
    | cons c1 cs2 =>
      dsimp only
      by_cases hq : c1 = '='
      · rw [if_pos hq]
        subst hq
        exact ⟨by simp, by simp [countNL]⟩
      · rw [if_neg hq]
        exact ⟨by simp, by simp [countNL]⟩
  rw [if_neg h13]
  by_cases h14 : c = '>'
  · rw [if_pos h14]
    subst h14
    cases cs with
    | nil => simp [countNL]
    | cons c1 cs2 =>
      dsimp only
      by_cases hq : c1 = '='
      · rw [if_pos hq]
        subst hq
        exact ⟨by simp, by simp [countNL]⟩
      · rw [if_neg hq]
        exact ⟨by simp, by simp [countNL]⟩
  rw [if_neg h14]
  by_cases h15 : c = '/'
  · rw [if_pos h15]
    subst h15
    cases cs with
    | nil => simp [countNL]
    | cons c1 cs2 =>
      dsimp only
      by_cases hq : c1 = '/'
      · rw [if_pos hq]
        subst hq
        simp [countNL]
      · rw [if_neg hq]
        exact ⟨by simp, by simp [countNL]⟩
  rw [if_neg h15]
  by_cases h16 : c = ' '
  · rw [if_pos h16]; subst h16; simp [countNL]
  rw [if_neg h16]
  by_cases h17 : c = '\r'
  · rw [if_pos h17]; subst h17; simp [countNL]
  rw [if_neg h17]
  by_cases h18 : c = '\t'
  · rw [if_pos h18]; subst h18; simp [countNL]
  rw [if_neg h18]
  by_cases h19 : c = '\n'
  · rw [if_pos h19]; subst h19; simp [countNL]; omega
  rw [if_neg h19]
  by_cases h20 : c = '"'
  · rw [if_pos h20]
    subst h20
    cases hd : cs.dropWhile (fun x => x ≠ '"') with
    | nil => trivial
    | cons d rest =>
      dsimp only
      refine ⟨by simp, ?_⟩
      have hdq : d = '"' := by
        have hfalse := dropWhile_head_false _ cs d rest hd
        simpa using hfalse
      have e1 : countNL cs =
          countNL (cs.takeWhile (fun x => x ≠ '"')) + countNL (d :: rest) := by
        rw [countNL_take_drop (fun x => decide (x ≠ '"')) cs, hd]
      have e2 : countNL (d :: rest) = countNL rest := by
        subst hdq
        exact countNL_cons_of_ne _ _ (by decide)
      have e3 : countNL ('"' :: cs) = countNL cs :=
        countNL_cons_of_ne _ _ (by decide)
      omega
  rw [if_neg h20]
  by_cases h21 : c.isDigit = true
  · rw [if_pos h21]
    have hc : ¬ c = '\n' := digit_ne_nl c h21
    have hcs : countNL (c :: cs) = countNL cs := countNL_cons_of_ne _ _ hc
    have hsplit : countNL cs =
        countNL (cs.dropWhile (fun x => x ≠ '.' ∧ x.isDigit)) :=
      countNL_split _ cs
        (fun x hx => digit_ne_nl x (of_decide_eq_true hx).2)
    cases hr : cs.dropWhile (fun x => x ≠ '.' ∧ x.isDigit) with
    | nil =>
      dsimp only
      rw [hr] at hsplit
      cases hp : parseNumQ (c :: cs.takeWhile (fun x => x ≠ '.' ∧ x.isDigit)) with
      | none => unfold numStep; rw [hp]; trivial
      | some q =>
        unfold numStep
        rw [hp]
        refine ⟨by simp, ?_⟩
        have h0 : countNL ([] : List Char) = 0 := rfl
        omega
    | cons d rest2 =>
      dsimp only
      rw [hr] at hsplit
      by_cases hdot : d ≠ '.'
      · rw [if_pos hdot]
        cases hp : parseNumQ (c :: cs.takeWhile (fun x => x ≠ '.' ∧ x.isDigit)) with
        | none => unfold numStep; rw [hp]; trivial
        | some q =>
          unfold numStep
          rw [hp]
          refine ⟨by simp, ?_⟩
          omega
      · rw [if_neg hdot]
        push_neg at hdot
        by_cases hfr : (rest2.takeWhile Char.isDigit).length = 0
        · rw [if_pos hfr]; trivial
        · rw [if_neg hfr]
          cases hp : parseNumQ ((c :: cs.takeWhile (fun x => x ≠ '.' ∧ x.isDigit)) ++
              '.' :: rest2.takeWhile Char.isDigit) with
          | none => unfold numStep; rw [hp]; trivial
          | some q =>
            unfold numStep
            rw [hp]
            refine ⟨by simp, ?_⟩
            have e4 : countNL (d :: rest2) = countNL rest2 := by
              subst hdot
              exact countNL_cons_of_ne _ _ (by decide)
            have e5 : countNL rest2 = countNL (rest2.dropWhile Char.isDigit) :=
              countNL_split _ rest2 (fun x hx => digit_ne_nl x hx)
            omega
  rw [if_neg h21]
  by_cases h22 : c.isAlpha = true ∨ c = '_'
  · rw [if_pos h22]
    refine ⟨from_keyword_ne_eof _, ?_⟩
    have hc : ¬ c = '\n' := alpha_ne_nl c h22
    have hcs : countNL (c :: cs) = countNL cs := countNL_cons_of_ne _ _ hc
    have hsplit : countNL cs =
        countNL (cs.dropWhile (fun x => x.isAlphanum ∨ x = '_')) :=
      countNL_split _ cs
        (fun x hx => alnum_ne_nl x (of_decide_eq_true hx))
    omega
  rw [if_neg h22]
  trivial

/-- Any successful run of the scanner loop produces a list of non-EOF tokens
followed by exactly one EOF token whose line is the entry line plus the
number of newlines in the input. -/
theorem scanGo_eof (fuel : Nat) : ∀ cs l toks, scanGo fuel cs l = .ok toks →
    ∃ pre, toks = pre ++ [⟨.EOF, [], .Null, l + countNL cs⟩] ∧
      ∀ t ∈ pre, t.token_type ≠ .EOF := by
  induction fuel with
  | zero =>
    intro cs l toks h
    exact absurd h (by simp [scanGo])
  | succ f ih =>
    intro cs l toks h
    match cs with
    | [] =>
      rw [scanGo] at h
      cases h
      exact ⟨[], by simp [countNL], by simp⟩
    | c :: cs' =>
      have hlines := scanStep_lines c cs' l
      rw [scanGo] at h
      cases hstep : scanStep c cs' l with
      | emit t rest line2 =>
        rw [hstep] at h hlines
        dsimp only at h hlines
        cases hrec : scanGo f rest line2 with
        | ok toks' =>
          rw [hrec] at h
          cases h
          obtain ⟨pre, hpre, hne⟩ := ih rest line2 toks' hrec
          refine ⟨t :: pre, ?_, ?_⟩
          · rw [hpre]
            have : line2 + countNL rest = l + countNL (c :: cs') := hlines.2
            rw [this]
            rfl
          · intro t' ht'
            rcases List.mem_cons.mp ht' with rfl | hmem
            · exact hlines.1
            · exact hne t' hmem
        | error e =>
          rw [hrec] at h
          exact absurd h (by simp [pushTok])
      | skip rest line2 =>
        rw [hstep] at h hlines
        dsimp only at h hlines
        obtain ⟨pre, hpre, hne⟩ := ih rest line2 toks h
        refine ⟨pre, ?_, hne⟩
        rw [hpre, hlines]
      | fail msg =>
        rw [hstep] at h
        dsimp only at h
        exact absurd h (by simp)

/-! ## Claim C8 -/

/-- C8 counterexample: line numbers are 0-based, not 1-based.  Scanning the
one-line source `1` produces its Number token with line 0 (as the source's
own unit tests also assert), not line 1. -/
theorem c8_counterexample_lines_zero_based :
    scan_tokens ['1'] =
      .ok [⟨.Number, ['1'], .Number (mkRat 1 1), 0⟩, ⟨.EOF, [], .Null, 0⟩] ∧
    (0 : Nat) ≠ 1 := by
  exact ⟨by decide, by decide⟩

/-- C8 amended: every token carries a 0-based source line number — tokens on
the first line of the source have line 0, the counter increments on each
newline character, and in a two-line source the tokens after the newline
carry line 1. -/
theorem c8_amended_lines_zero_based :
    (∀ (f : Nat) (cs : List Char) (l : Nat),
      scanGo (f + 1) ('\n' :: cs) l = scanGo f cs (l + 1)) ∧
    scan_tokens "1\n2".toList =
      .ok [⟨.Number, ['1'], .Number (mkRat 1 1), 0⟩,
           ⟨.Number, ['2'], .Number (mkRat 2 1), 1⟩,
           ⟨.EOF, [], .Null, 1⟩] := by
  exact ⟨fun f cs l => rfl, by decide⟩

/-! ## Claim C9 -/

/-- C9 counterexample: for the source consisting of a single newline, the
scan succeeds with an EOF token on line 1, but the last source character
(the newline, at position 0) lies on line 0: the EOF token's line does not
equal the line of the last source character. -/
theorem c9_counterexample_trailing_newline :
    scan_tokens ['\n'] = .ok [⟨.EOF, [], .Null, 1⟩] ∧
    specCharLine ['\n'] 0 = 0 ∧ (1 : Nat) ≠ 0 := by
  exact ⟨by decide, by decide, by decide⟩

/-- C9 amended: every successfully scanned token list is a run of non-EOF
tokens followed by exactly one EOF token, whose line is the total number of
newlines in the source (the line of the last character whenever the source
does not end in a newline); the empty source yields just the EOF token. -/
theorem c9_amended_eof_invariant :
    (∀ source toks, scan_tokens source = .ok toks →
      ∃ pre, toks = pre ++ [⟨.EOF, [], .Null, countNL source⟩] ∧
        ∀ t ∈ pre, t.token_type ≠ .EOF) ∧
    scan_tokens [] = .ok [⟨.EOF, [], .Null, 0⟩] := by
  constructor
  · intro source toks h
    have hmain := scanGo_eof (source.length + 1) source 0 toks h
    simpa using hmain
  · decide

/-- Witness for the amended C9 at the concrete source `1`. -/
theorem c9_amended_eof_invariant_witness :
    ∃ pre, ([⟨.Number, ['1'], .Number (mkRat 1 1), 0⟩,
        ⟨.EOF, [], .Null, 0⟩] : List Token) =
      pre ++ [⟨.EOF, [], .Null, countNL ['1']⟩] ∧
      ∀ t ∈ pre, t.token_type ≠ .EOF :=
  c9_amended_eof_invariant.1 ['1'] _ (by decide)

/-! ## Parser totality -/

theorem EndsEOF_cons_of_ne (t : Token) (rest : List Token)
    (h : EndsEOF (t :: rest)) (hne : t.token_type ≠ .EOF) : EndsEOF rest := by
  cases rest with
  | nil =>
    exfalso
    apply hne
    simpa [EndsEOF] using h
  | cons a l =>
    unfold EndsEOF at h ⊢
    rwa [List.getLast?_cons_cons] at h

theorem WFtoks_tail (t : Token) (rest : List Token) (h : WFtoks (t :: rest)) :
    WFtoks rest :=
  fun t' ht' => h t' (List.mem_cons_of_mem t ht')

theorem WFtoks_suffix (l1 l2 : List Token) (hs : l1 <:+ l2) (h : WFtoks l2) :
    WFtoks l1 :=
  fun t' ht' => h t' (hs.mem ht')

theorem wf_number (t : Token) (hw : wfTok t = true)
    (hn : t.token_type = .Number) : ∃ q, t.literal = .Number q := by
  unfold wfTok at hw
  rw [hn] at hw
  cases hl : t.literal with
  | Null => rw [hl] at hw; cases hw
  | Text s => rw [hl] at hw; cases hw
  | Number q => exact ⟨q, rfl⟩

theorem wf_string (t : Token) (hw : wfTok t = true)
    (hn : t.token_type = .String) : ∃ s, t.literal = .Text s := by
  unfold wfTok at hw
  rw [hn] at hw
  cases hl : t.literal with
  | Null => rw [hl] at hw; cases hw
  | Text s => exact ⟨s, rfl⟩
  | Number q => rw [hl] at hw; cases hw

/-- For sufficient fuel (`8 * length + rank`), every parser entry point on a
token slice that ends with an EOF token and has lexer-shaped literals either
returns a tree together with a suffix of its input (having consumed at least
one token, except for the binary-operator loops) that still ends with EOF,
or returns a ParserError — never the panic or out-of-fuel outcomes. -/
theorem parseStep_total (fuel : Nat) :
    (∀ (ts : List Token), EndsEOF ts → WFtoks ts →
        8 * ts.length + 1 ≤ fuel →
      (∃ e rest, parseStep fuel .pprimary ts = .ok (e, rest) ∧ rest <:+ ts ∧
        rest.length < ts.length ∧ EndsEOF rest) ∨
      (∃ pe, parseStep fuel .pprimary ts = .perr pe)) ∧
    (∀ (ts : List Token), EndsEOF ts → WFtoks ts →
        8 * ts.length + 2 ≤ fuel →
      (∃ e rest, parseStep fuel .punary ts = .ok (e, rest) ∧ rest <:+ ts ∧
        rest.length < ts.length ∧ EndsEOF rest) ∨
      (∃ pe, parseStep fuel .punary ts = .perr pe)) ∧
    (∀ (ts : List Token), EndsEOF ts → WFtoks ts →
        8 * ts.length + 3 ≤ fuel →
      (∃ e rest, parseStep fuel .pfactor ts = .ok (e, rest) ∧ rest <:+ ts ∧
        rest.length < ts.length ∧ EndsEOF rest) ∨
      (∃ pe, parseStep fuel .pfactor ts = .perr pe)) ∧
    (∀ (ts : List Token), EndsEOF ts → WFtoks ts →
        8 * ts.length + 4 ≤ fuel →
      (∃ e rest, parseStep fuel .pterm ts = .ok (e, rest) ∧ rest <:+ ts ∧
        rest.length < ts.length ∧ EndsEOF rest) ∨
      (∃ pe, parseStep fuel .pterm ts = .perr pe)) ∧
    (∀ (ts : List Token), EndsEOF ts → WFtoks ts →
        8 * ts.length + 5 ≤ fuel →
      (∃ e rest, parseStep fuel .pcomparison ts = .ok (e, rest) ∧ rest <:+ ts ∧
        rest.length < ts.length ∧ EndsEOF rest) ∨
      (∃ pe, parseStep fuel .pcomparison ts = .perr pe)) ∧
    (∀ (ts : List Token), EndsEOF ts → WFtoks ts →
        8 * ts.length + 6 ≤ fuel →
      (∃ e rest, parseStep fuel .pequality ts = .ok (e, rest) ∧ rest <:+ ts ∧
        rest.length < ts.length ∧ EndsEOF rest) ∨
      (∃ pe, parseStep fuel .pequality ts = .perr pe)) ∧
    (∀ (ts : List Token), EndsEOF ts → WFtoks ts →
        8 * ts.length + 7 ≤ fuel →
      (∃ e rest, parseStep fuel .pexpr ts = .ok (e, rest) ∧ rest <:+ ts ∧
        rest.length < ts.length ∧ EndsEOF rest) ∨
      (∃ pe, parseStep fuel .pexpr ts = .perr pe)) ∧
    (∀ (left : Expr) (ts : List Token), EndsEOF ts → WFtoks ts →
        8 * ts.length + 10 ≤ fuel →
      (∃ e rest, parseStep fuel (.pfactorLoop left) ts = .ok (e, rest) ∧ rest <:+ ts ∧
        rest.length ≤ ts.length ∧ EndsEOF rest) ∨
      (∃ pe, parseStep fuel (.pfactorLoop left) ts = .perr pe)) ∧
    (∀ (left : Expr) (ts : List Token), EndsEOF ts → WFtoks ts →
        8 * ts.length + 11 ≤ fuel →
      (∃ e rest, parseStep fuel (.ptermLoop left) ts = .ok (e, rest) ∧ rest <:+ ts ∧
        rest.length ≤ ts.length ∧ EndsEOF rest) ∨
      (∃ pe, parseStep fuel (.ptermLoop left) ts = .perr pe)) ∧
    (∀ (left : Expr) (ts : List Token), EndsEOF ts → WFtoks ts →
        8 * ts.length + 12 ≤ fuel →
      (∃ e rest, parseStep fuel (.pcompLoop left) ts = .ok (e, rest) ∧ rest <:+ ts ∧
        rest.length ≤ ts.length ∧ EndsEOF rest) ∨
      (∃ pe, parseStep fuel (.pcompLoop left) ts = .perr pe)) ∧
    (∀ (left : Expr) (ts : List Token), EndsEOF ts → WFtoks ts →
        8 * ts.length + 13 ≤ fuel →
      (∃ e rest, parseStep fuel (.peqLoop left) ts = .ok (e, rest) ∧ rest <:+ ts ∧
        rest.length ≤ ts.length ∧ EndsEOF rest) ∨
      (∃ pe, parseStep fuel (.peqLoop left) ts = .perr pe)) := by
  induction fuel with
  | zero =>
    refine ⟨?_, ?_, ?_, ?_, ?_, ?_, ?_, ?_, ?_, ?_, ?_⟩ <;> (intros; omega)
  | succ f ih =>
    obtain ⟨IH1, IH2, IH3, IH4, IH5, IH6, IH7, IH8, IH9, IH10, IH11⟩ := ih
    refine ⟨?_, ?_, ?_, ?_, ?_, ?_, ?_, ?_, ?_, ?_, ?_⟩
    · intro ts hE hW hF
      cases ts with
      | nil => exact hE.elim
      | cons t rest0 =>
        have hlen : (t :: rest0).length = rest0.length + 1 := rfl
        simp only [parseStep]
        by_cases hT : t.token_type = .True
        · rw [if_pos hT]
          exact Or.inl ⟨_, rest0, rfl, List.suffix_cons t rest0, by omega,
            EndsEOF_cons_of_ne t rest0 hE (by rw [hT]; decide)⟩
        rw [if_neg hT]
        by_cases hFa : t.token_type = .False
        · rw [if_pos hFa]
          exact Or.inl ⟨_, rest0, rfl, List.suffix_cons t rest0, by omega,
            EndsEOF_cons_of_ne t rest0 hE (by rw [hFa]; decide)⟩
        rw [if_neg hFa]
        by_cases hN : t.token_type = .Nil
        · rw [if_pos hN]
          exact Or.inl ⟨_, rest0, rfl, List.suffix_cons t rest0, by omega,
            EndsEOF_cons_of_ne t rest0 hE (by rw [hN]; decide)⟩
        rw [if_neg hN]
        by_cases hNum : t.token_type = .Number
        · rw [if_pos hNum]
          obtain ⟨q, hq⟩ := wf_number t (hW t (List.mem_cons_self t rest0)) hNum
          rw [hq]
          exact Or.inl ⟨_, rest0, rfl, List.suffix_cons t rest0, by omega,
            EndsEOF_cons_of_ne t rest0 hE (by rw [hNum]; decide)⟩
        rw [if_neg hNum]
        by_cases hStr : t.token_type = .String
        · rw [if_pos hStr]
          obtain ⟨sv, hs⟩ := wf_string t (hW t (List.mem_cons_self t rest0)) hStr
          rw [hs]
          exact Or.inl ⟨_, rest0, rfl, List.suffix_cons t rest0, by omega,
            EndsEOF_cons_of_ne t rest0 hE (by rw [hStr]; decide)⟩
        rw [if_neg hStr]
        by_cases hLP : t.token_type = .LeftParen
        · rw [if_pos hLP]
          have hE0 : EndsEOF rest0 :=
            EndsEOF_cons_of_ne t rest0 hE (by rw [hLP]; decide)
          have hW0 : WFtoks rest0 := WFtoks_tail t rest0 hW
          rcases IH7 rest0 hE0 hW0 (by omega) with
            ⟨e, rest, hok, hsuf, hlt, hE2⟩ | ⟨pe, hpe⟩
          · rw [hok]
            cases rest with
            | nil => exact hE2.elim
            | cons t2 rest3 =>
              dsimp only
              have hlen2 : (t2 :: rest3).length = rest3.length + 1 := rfl
              have hsl := hsuf.length_le
              by_cases hRP : t2.token_type = .RightParen
              · rw [if_pos hRP]
                exact Or.inl ⟨_, rest3, rfl,
                  ((List.suffix_cons t2 rest3).trans hsuf).trans
                    (List.suffix_cons t rest0),
                  by omega,
                  EndsEOF_cons_of_ne t2 rest3 hE2 (by rw [hRP]; decide)⟩
              · rw [if_neg hRP]
                exact Or.inr ⟨_, rfl⟩
          · rw [hpe]
            exact Or.inr ⟨pe, rfl⟩
        rw [if_neg hLP]
        exact Or.inr ⟨_, rfl⟩
    · intro ts hE hW hF
      cases ts with
      | nil => exact hE.elim
      | cons t rest0 =>
        have hlen : (t :: rest0).length = rest0.length + 1 := rfl
        simp only [parseStep]
        by_cases hB : t.token_type = .Bang
        · rw [if_pos hB]
          have hE0 : EndsEOF rest0 :=
            EndsEOF_cons_of_ne t rest0 hE (by rw [hB]; decide)
          have hW0 : WFtoks rest0 := WFtoks_tail t rest0 hW
          rcases IH2 rest0 hE0 hW0 (by omega) with
            ⟨e, rest2, hok, hsuf, hlt, hE2⟩ | ⟨pe, hpe⟩
          · rw [hok]
            exact Or.inl ⟨_, rest2, rfl, hsuf.trans (List.suffix_cons t rest0),
              by omega, hE2⟩
          · rw [hpe]
            exact Or.inr ⟨pe, rfl⟩
        rw [if_neg hB]
        by_cases hM : t.token_type = .Minus
        · rw [if_pos hM]
          have hE0 : EndsEOF rest0 :=
            EndsEOF_cons_of_ne t rest0 hE (by rw [hM]; decide)
          have hW0 : WFtoks rest0 := WFtoks_tail t rest0 hW
          rcases IH2 rest0 hE0 hW0 (by omega) with
            ⟨e, rest2, hok, hsuf, hlt, hE2⟩ | ⟨pe, hpe⟩
          · rw [hok]
            exact Or.inl ⟨_, rest2, rfl, hsuf.trans (List.suffix_cons t rest0),
              by omega, hE2⟩
          · rw [hpe]
            exact Or.inr ⟨pe, rfl⟩
        rw [if_neg hM]
        exact IH1 (t :: rest0) hE hW (by omega)
    · intro ts hE hW hF
      simp only [parseStep]
      rcases IH2 ts hE hW (by omega) with ⟨l, rest, hok, hsuf, hlt, hE2⟩ | ⟨pe, hpe⟩
      · rw [hok]
        have hW2 : WFtoks rest := WFtoks_suffix rest ts hsuf hW
        rcases IH8 l rest hE2 hW2 (by omega) with
          ⟨e, rest2, hok2, hsuf2, hle2, hE3⟩ | ⟨pe, hpe2⟩
        · exact Or.inl ⟨e, rest2, hok2, hsuf2.trans hsuf, by omega, hE3⟩
        · exact Or.inr ⟨pe, hpe2⟩
      · rw [hpe]
        exact Or.inr ⟨pe, rfl⟩
    · intro ts hE hW hF
      simp only [parseStep]
      rcases IH3 ts hE hW (by omega) with ⟨l, rest, hok, hsuf, hlt, hE2⟩ | ⟨pe, hpe⟩
      · rw [hok]
        have hW2 : WFtoks rest := WFtoks_suffix rest ts hsuf hW
        rcases IH9 l rest hE2 hW2 (by omega) with
          ⟨e, rest2, hok2, hsuf2, hle2, hE3⟩ | ⟨pe, hpe2⟩
        · exact Or.inl ⟨e, rest2, hok2, hsuf2.trans hsuf, by omega, hE3⟩
        · exact Or.inr ⟨pe, hpe2⟩
      · rw [hpe]
        exact Or.inr ⟨pe, rfl⟩
    · intro ts hE hW hF
      simp only [parseStep]
      rcases IH4 ts hE hW (by omega) with ⟨l, rest, hok, hsuf, hlt, hE2⟩ | ⟨pe, hpe⟩
      · rw [hok]
        have hW2 : WFtoks rest := WFtoks_suffix rest ts hsuf hW
        rcases IH10 l rest hE2 hW2 (by omega) with
          ⟨e, rest2, hok2, hsuf2, hle2, hE3⟩ | ⟨pe, hpe2⟩
        · exact Or.inl ⟨e, rest2, hok2, hsuf2.trans hsuf, by omega, hE3⟩
        · exact Or.inr ⟨pe, hpe2⟩
      · rw [hpe]
        exact Or.inr ⟨pe, rfl⟩
    · intro ts hE hW hF
      simp only [parseStep]
      rcases IH5 ts hE hW (by omega) with ⟨l, rest, hok, hsuf, hlt, hE2⟩ | ⟨pe, hpe⟩
      · rw [hok]
        have hW2 : WFtoks rest := WFtoks_suffix rest ts hsuf hW
        rcases IH11 l rest hE2 hW2 (by omega) with
          ⟨e, rest2, hok2, hsuf2, hle2, hE3⟩ | ⟨pe, hpe2⟩
        · exact Or.inl ⟨e, rest2, hok2, hsuf2.trans hsuf, by omega, hE3⟩
        · exact Or.inr ⟨pe, hpe2⟩
      · rw [hpe]
        exact Or.inr ⟨pe, rfl⟩
    · intro ts hE hW hF
      simp only [parseStep]
      exact IH6 ts hE hW (by omega)
    · intro left ts hE hW hF
      cases ts with
      | nil => exact hE.elim
      | cons t rest0 =>
        have hlen : (t :: rest0).length = rest0.length + 1 := rfl
        simp only [parseStep]
        by_cases hSlash : t.token_type = .Slash
        · rw [if_pos hSlash]
          have hE0 : EndsEOF rest0 :=
            EndsEOF_cons_of_ne t rest0 hE (by rw [hSlash]; decide)
          have hW0 : WFtoks rest0 := WFtoks_tail t rest0 hW
          rcases IH2 rest0 hE0 hW0 (by omega) with
            ⟨r, rest2, hok, hsuf, hlt, hE2⟩ | ⟨pe, hpe⟩
          · rw [hok]
            have hW2 : WFtoks rest2 := WFtoks_suffix rest2 rest0 hsuf hW0
            rcases IH8 (.Binary left r .Slash noTok) rest2 hE2 hW2 (by omega) with
              ⟨e, rest3, hok3, hsuf3, hle3, hE3⟩ | ⟨pe, hpe3⟩
            · exact Or.inl ⟨e, rest3, hok3,
                hsuf3.trans (hsuf.trans (List.suffix_cons t rest0)), by omega, hE3⟩
            · exact Or.inr ⟨pe, hpe3⟩
          · rw [hpe]
            exact Or.inr ⟨pe, rfl⟩
        rw [if_neg hSlash]
        by_cases hStar : t.token_type = .Star
        · rw [if_pos hStar]
          have hE0 : EndsEOF rest0 :=
            EndsEOF_cons_of_ne t rest0 hE (by rw [hStar]; decide)
          have hW0 : WFtoks rest0 := WFtoks_tail t rest0 hW
          rcases IH2 rest0 hE0 hW0 (by omega) with
            ⟨r, rest2, hok, hsuf, hlt, hE2⟩ | ⟨pe, hpe⟩
          · rw [hok]
            have hW2 : WFtoks rest2 := WFtoks_suffix rest2 rest0 hsuf hW0
            rcases IH8 (.Binary left r .Star noTok) rest2 hE2 hW2 (by omega) with
              ⟨e, rest3, hok3, hsuf3, hle3, hE3⟩ | ⟨pe, hpe3⟩
            · exact Or.inl ⟨e, rest3, hok3,
                hsuf3.trans (hsuf.trans (List.suffix_cons t rest0)), by omega, hE3⟩
            · exact Or.inr ⟨pe, hpe3⟩
          · rw [hpe]
            exact Or.inr ⟨pe, rfl⟩
        rw [if_neg hStar]
        exact Or.inl ⟨left, t :: rest0, rfl, List.suffix_refl _, Nat.le_refl _, hE⟩
    · intro left ts hE hW hF
      cases ts with
      | nil => exact hE.elim
      | cons t rest0 =>
        have hlen : (t :: rest0).length = rest0.length + 1 := rfl
        simp only [parseStep]
        by_cases hMinus : t.token_type = .Minus
        · rw [if_pos hMinus]
          have hE0 : EndsEOF rest0 :=
            EndsEOF_cons_of_ne t rest0 hE (by rw [hMinus]; decide)
          have hW0 : WFtoks rest0 := WFtoks_tail t rest0 hW
          rcases IH3 rest0 hE0 hW0 (by omega) with
            ⟨r, rest2, hok, hsuf, hlt, hE2⟩ | ⟨pe, hpe⟩
          · rw [hok]
            have hW2 : WFtoks rest2 := WFtoks_suffix rest2 rest0 hsuf hW0
            rcases IH9 (.Binary left r .Minus noTok) rest2 hE2 hW2 (by omega) with
              ⟨e, rest3, hok3, hsuf3, hle3, hE3⟩ | ⟨pe, hpe3⟩
            · exact Or.inl ⟨e, rest3, hok3,
                hsuf3.trans (hsuf.trans (List.suffix_cons t rest0)), by omega, hE3⟩
            · exact Or.inr ⟨pe, hpe3⟩
          · rw [hpe]
            exact Or.inr ⟨pe, rfl⟩
        rw [if_neg hMinus]
        by_cases hPlus : t.token_type = .Plus
        · rw [if_pos hPlus]
          have hE0 : EndsEOF rest0 :=
            EndsEOF_cons_of_ne t rest0 hE (by rw [hPlus]; decide)
          have hW0 : WFtoks rest0 := WFtoks_tail t rest0 hW
          rcases IH3 rest0 hE0 hW0 (by omega) with
            ⟨r, rest2, hok, hsuf, hlt, hE2⟩ | ⟨pe, hpe⟩
          · rw [hok]
            have hW2 : WFtoks rest2 := WFtoks_suffix rest2 rest0 hsuf hW0
            rcases IH9 (.Binary left r .Plus noTok) rest2 hE2 hW2 (by omega) with
              ⟨e, rest3, hok3, hsuf3, hle3, hE3⟩ | ⟨pe, hpe3⟩
            · exact Or.inl ⟨e, rest3, hok3,
                hsuf3.trans (hsuf.trans (List.suffix_cons t rest0)), by omega, hE3⟩
            · exact Or.inr ⟨pe, hpe3⟩
          · rw [hpe]
            exact Or.inr ⟨pe, rfl⟩
        rw [if_neg hPlus]
        exact Or.inl ⟨left, t :: rest0, rfl, List.suffix_refl _, Nat.le_refl _, hE⟩
    · intro left ts hE hW hF
      cases ts with
      | nil => exact hE.elim
      | cons t rest0 =>
        have hlen : (t :: rest0).length = rest0.length + 1 := rfl
        simp only [parseStep]
        by_cases hGreater : t.token_type = .Greater
        · rw [if_pos hGreater]
          have hE0 : EndsEOF rest0 :=
            EndsEOF_cons_of_ne t rest0 hE (by rw [hGreater]; decide)
          have hW0 : WFtoks rest0 := WFtoks_tail t rest0 hW
          rcases IH5 rest0 hE0 hW0 (by omega) with
            ⟨r, rest2, hok, hsuf, hlt, hE2⟩ | ⟨pe, hpe⟩
          · rw [hok]
            have hW2 : WFtoks rest2 := WFtoks_suffix rest2 rest0 hsuf hW0
            rcases IH10 (.Binary left r .Greater noTok) rest2 hE2 hW2 (by omega) with
              ⟨e, rest3, hok3, hsuf3, hle3, hE3⟩ | ⟨pe, hpe3⟩
            · exact Or.inl ⟨e, rest3, hok3,
                hsuf3.trans (hsuf.trans (List.suffix_cons t rest0)), by omega, hE3⟩
            · exact Or.inr ⟨pe, hpe3⟩
          · rw [hpe]
            exact Or.inr ⟨pe, rfl⟩
        rw [if_neg hGreater]
        by_cases hGreaterEqual : t.token_type = .GreaterEqual
        · rw [if_pos hGreaterEqual]
          have hE0 : EndsEOF rest0 :=
            EndsEOF_cons_of_ne t rest0 hE (by rw [hGreaterEqual]; decide)
          have hW0 : WFtoks rest0 := WFtoks_tail t rest0 hW
          rcases IH5 rest0 hE0 hW0 (by omega) with
            ⟨r, rest2, hok, hsuf, hlt, hE2⟩ | ⟨pe, hpe⟩
          · rw [hok]
            have hW2 : WFtoks rest2 := WFtoks_suffix rest2 rest0 hsuf hW0
            rcases IH10 (.Binary left r .GreaterEqual noTok) rest2 hE2 hW2 (by omega) with
              ⟨e, rest3, hok3, hsuf3, hle3, hE3⟩ | ⟨pe, hpe3⟩
            · exact Or.inl ⟨e, rest3, hok3,
                hsuf3.trans (hsuf.trans (List.suffix_cons t rest0)), by omega, hE3⟩
            · exact Or.inr ⟨pe, hpe3⟩
          · rw [hpe]
            exact Or.inr ⟨pe, rfl⟩
        rw [if_neg hGreaterEqual]
        by_cases hLess : t.token_type = .Less
        · rw [if_pos hLess]
          have hE0 : EndsEOF rest0 :=
            EndsEOF_cons_of_ne t rest0 hE (by rw [hLess]; decide)
          have hW0 : WFtoks rest0 := WFtoks_tail t rest0 hW
          rcases IH5 rest0 hE0 hW0 (by omega) with
            ⟨r, rest2, hok, hsuf, hlt, hE2⟩ | ⟨pe, hpe⟩
          · rw [hok]
            have hW2 : WFtoks rest2 := WFtoks_suffix rest2 rest0 hsuf hW0
            rcases IH10 (.Binary left r .Less noTok) rest2 hE2 hW2 (by omega) with
              ⟨e, rest3, hok3, hsuf3, hle3, hE3⟩ | ⟨pe, hpe3⟩
            · exact Or.inl ⟨e, rest3, hok3,
                hsuf3.trans (hsuf.trans (List.suffix_cons t rest0)), by omega, hE3⟩
            · exact Or.inr ⟨pe, hpe3⟩
          · rw [hpe]
            exact Or.inr ⟨pe, rfl⟩
        rw [if_neg hLess]
        by_cases hLessEqual : t.token_type = .LessEqual
        · rw [if_pos hLessEqual]
          have hE0 : EndsEOF rest0 :=
            EndsEOF_cons_of_ne t rest0 hE (by rw [hLessEqual]; decide)
          have hW0 : WFtoks rest0 := WFtoks_tail t rest0 hW
          rcases IH5 rest0 hE0 hW0 (by omega) with
            ⟨r, rest2, hok, hsuf, hlt, hE2⟩ | ⟨pe, hpe⟩
          · rw [hok]
            have hW2 : WFtoks rest2 := WFtoks_suffix rest2 rest0 hsuf hW0
            rcases IH10 (.Binary left r .LessEqual noTok) rest2 hE2 hW2 (by omega) with
              ⟨e, rest3, hok3, hsuf3, hle3, hE3⟩ | ⟨pe, hpe3⟩
            · exact Or.inl ⟨e, rest3, hok3,
                hsuf3.trans (hsuf.trans (List.suffix_cons t rest0)), by omega, hE3⟩
            · exact Or.inr ⟨pe, hpe3⟩
          · rw [hpe]
            exact Or.inr ⟨pe, rfl⟩
        rw [if_neg hLessEqual]
        exact Or.inl ⟨left, t :: rest0, rfl, List.suffix_refl _, Nat.le_refl _, hE⟩
    · intro left ts hE hW hF
      cases ts with
      | nil => exact hE.elim
      | cons t rest0 =>
        have hlen : (t :: rest0).length = rest0.length + 1 := rfl
        simp only [parseStep]
        by_cases hEqualEqual : t.token_type = .EqualEqual
        · rw [if_pos hEqualEqual]
          have hE0 : EndsEOF rest0 :=
            EndsEOF_cons_of_ne t rest0 hE (by rw [hEqualEqual]; decide)
          have hW0 : WFtoks rest0 := WFtoks_tail t rest0 hW
          rcases IH5 rest0 hE0 hW0 (by omega) with
            ⟨r, rest2, hok, hsuf, hlt, hE2⟩ | ⟨pe, hpe⟩
          · rw [hok]
            have hW2 : WFtoks rest2 := WFtoks_suffix rest2 rest0 hsuf hW0
            rcases IH11 (.Binary left r .EqualEqual noTok) rest2 hE2 hW2 (by omega) with
              ⟨e, rest3, hok3, hsuf3, hle3, hE3⟩ | ⟨pe, hpe3⟩
            · exact Or.inl ⟨e, rest3, hok3,
                hsuf3.trans (hsuf.trans (List.suffix_cons t rest0)), by omega, hE3⟩
            · exact Or.inr ⟨pe, hpe3⟩
          · rw [hpe]
            exact Or.inr ⟨pe, rfl⟩
        rw [if_neg hEqualEqual]
        by_cases hBangEqual : t.token_type = .BangEqual
        · rw [if_pos hBangEqual]
          have hE0 : EndsEOF rest0 :=
            EndsEOF_cons_of_ne t rest0 hE (by rw [hBangEqual]; decide)
          have hW0 : WFtoks rest0 := WFtoks_tail t rest0 hW
          rcases IH5 rest0 hE0 hW0 (by omega) with
            ⟨r, rest2, hok, hsuf, hlt, hE2⟩ | ⟨pe, hpe⟩
          · rw [hok]
            have hW2 : WFtoks rest2 := WFtoks_suffix rest2 rest0 hsuf hW0
            rcases IH11 (.Binary left r .BangEqual noTok) rest2 hE2 hW2 (by omega) with
              ⟨e, rest3, hok3, hsuf3, hle3, hE3⟩ | ⟨pe, hpe3⟩
            · exact Or.inl ⟨e, rest3, hok3,
                hsuf3.trans (hsuf.trans (List.suffix_cons t rest0)), by omega, hE3⟩
            · exact Or.inr ⟨pe, hpe3⟩
          · rw [hpe]
            exact Or.inr ⟨pe, rfl⟩
        rw [if_neg hBangEqual]
        exact Or.inl ⟨left, t :: rest0, rfl, List.suffix_refl _, Nat.le_refl _, hE⟩

/-! ## Claim C10 -/

/-- C10: on any token sequence that ends with an end-of-input token and
whose Number/String tokens carry literals of the matching kind (as the lexer
guarantees), `parse_tokens` never reaches a panic (`.crash`) nor the fuel
bound (`.starved`): it returns an expression tree or a ParserError. -/
theorem c10_parse_tokens_no_panic (ts : List Token) (hE : EndsEOF ts)
    (hW : WFtoks ts) :
    (∃ e, parse_tokens ts = .ok e) ∨ (∃ pe, parse_tokens ts = .perr pe) := by
  have hexpr := (parseStep_total (8 * ts.length + 7)).2.2.2.2.2.2.1
  rcases hexpr ts hE hW (Nat.le_refl _) with
    ⟨e, rest, hok, _, _, _⟩ | ⟨pe, hpe⟩
  · left
    refine ⟨e, ?_⟩
    unfold parse_tokens parse_expr
    rw [hok]
  · right
    refine ⟨pe, ?_⟩
    unfold parse_tokens parse_expr
    rw [hpe]

/-- Witness for C10 at the token sequence of the source `1`. -/
theorem c10_parse_tokens_no_panic_witness :
    (∃ e, parse_tokens [⟨.Number, ['1'], .Number (mkRat 1 1), 0⟩,
      ⟨.EOF, [], .Null, 0⟩] = .ok e) ∨
    (∃ pe, parse_tokens [⟨.Number, ['1'], .Number (mkRat 1 1), 0⟩,
      ⟨.EOF, [], .Null, 0⟩] = .perr pe) :=
  c10_parse_tokens_no_panic _ (by exact rfl) (by decide)

/-! ## Claim C7 -/

/-- C7 counterexample: `parse_tokens` performs no end-of-input check after
`parse_expr`, so on `[Number 1, Number 2, EOF]` it succeeds with the tree
for `1` while the non-EOF token `Number 2` is left unconsumed. -/
theorem c7_counterexample_extra_tokens_accepted :
    parse_tokens [⟨.Number, ['1'], .Number (mkRat 1 1), 0⟩,
        ⟨.Number, ['2'], .Number (mkRat 2 1), 0⟩, ⟨.EOF, [], .Null, 0⟩] =
      .ok (.Literal (.Number (mkRat 1 1)) noTok) ∧
    parse_expr 31 [⟨.Number, ['1'], .Number (mkRat 1 1), 0⟩,
        ⟨.Number, ['2'], .Number (mkRat 2 1), 0⟩, ⟨.EOF, [], .Null, 0⟩] =
      .ok (.Literal (.Number (mkRat 1 1)) noTok,
        [⟨.Number, ['2'], .Number (mkRat 2 1), 0⟩, ⟨.EOF, [], .Null, 0⟩]) ∧
    (⟨.Number, ['2'], .Number (mkRat 2 1), 0⟩ : Token).token_type ≠ .EOF := by
  exact ⟨by decide, by decide, by decide⟩

/-- C7 amended: on a token sequence ending with EOF (with lexer-shaped
literals), the parser either fails with a ParserError or produces exactly one
expression tree, consuming a prefix of the sequence — but not necessarily
all tokens up to end-of-input: any remaining tokens are ignored without
error. -/
theorem c7_amended_prefix_consumption (ts : List Token) (hE : EndsEOF ts)
    (hW : WFtoks ts) (e : Expr) (rest : List Token)
    (hok : parse_expr (8 * ts.length + 7) ts = .ok (e, rest)) :
    parse_tokens ts = .ok e ∧ rest <:+ ts := by
  constructor
  · unfold parse_tokens
    rw [hok]
  · have hexpr := (parseStep_total (8 * ts.length + 7)).2.2.2.2.2.2.1
    rcases hexpr ts hE hW (Nat.le_refl _) with
      ⟨e2, rest2, hok2, hsuf, _, _⟩ | ⟨pe, hpe⟩
    · unfold parse_expr at hok
      rw [hok] at hok2
      cases hok2
      exact hsuf
    · unfold parse_expr at hok
      rw [hok] at hpe
      cases hpe

/-- Witness for the amended C7 at `[Number 1, Number 2, EOF]`. -/
theorem c7_amended_prefix_consumption_witness :
    parse_tokens [⟨.Number, ['1'], .Number (mkRat 1 1), 0⟩,
        ⟨.Number, ['2'], .Number (mkRat 2 1), 0⟩, ⟨.EOF, [], .Null, 0⟩] =
      .ok (.Literal (.Number (mkRat 1 1)) noTok) ∧
    ([⟨.Number, ['2'], .Number (mkRat 2 1), 0⟩,
        ⟨.EOF, [], .Null, 0⟩] : List Token) <:+
      [⟨.Number, ['1'], .Number (mkRat 1 1), 0⟩,
        ⟨.Number, ['2'], .Number (mkRat 2 1), 0⟩, ⟨.EOF, [], .Null, 0⟩] :=
  c7_amended_prefix_consumption
    [⟨.Number, ['1'], .Number (mkRat 1 1), 0⟩,
      ⟨.Number, ['2'], .Number (mkRat 2 1), 0⟩, ⟨.EOF, [], .Null, 0⟩]
    (by exact rfl) (by decide)
    (.Literal (.Number (mkRat 1 1)) noTok)
    [⟨.Number, ['2'], .Number (mkRat 2 1), 0⟩, ⟨.EOF, [], .Null, 0⟩]
    (by decide)
